import Mathlib

/- Shallow embedding of the candidate-extraction engine of src/app.py.

   Strings are modelled as lists of characters (Str).  The Python string
   operations used by the source (strip, split, join, and the regular
   expression searches) are embedded as executable Lean functions over
   Str.  Each definition documents the source construct it models; the
   regular expressions are embedded by their operational meaning under
   the Python backtracking semantics (leftmost match, greedy and lazy
   quantifiers), derived case by case in the comments. -/

namespace CandExtract

abbrev Str := List Char

/-- The ASCII whitespace characters of Python str.strip and of the regex
class backslash-s: space, tab, newline, carriage return, vertical tab and
form feed. -/
def pyIsSpace (c : Char) : Bool :=
  c == ' ' || c == '\t' || c == '\n' || c == '\r' || c == '\x0b' || c == '\x0c'

/-- ASCII upper-case letter, the character class used by the source
patterns when re.IGNORECASE is absent. -/
def isUpperA (c : Char) : Bool := 65 ≤ c.toNat && c.toNat ≤ 90

/-- ASCII lower-case letter. -/
def isLowerA (c : Char) : Bool := 97 ≤ c.toNat && c.toNat ≤ 122

/-- Any ASCII letter: what the class A-Z matches under re.IGNORECASE. -/
def isLetterCI (c : Char) : Bool := isUpperA c || isLowerA c

/-- ASCII lower-casing, the effect of re.IGNORECASE on literal pattern
characters (all pattern literals in the source are ASCII). -/
def lowerC (c : Char) : Char :=
  if isUpperA c then Char.ofNat (c.toNat + 32) else c

/-- Python str.lstrip restricted to ASCII whitespace. -/
def stripLeft (s : Str) : Str := s.dropWhile pyIsSpace

/-- Python str.rstrip restricted to ASCII whitespace. -/
def stripRight (s : Str) : Str := ((s.reverse).dropWhile pyIsSpace).reverse

/-- Python str.strip restricted to ASCII whitespace. -/
def pyStrip (s : Str) : Str := stripRight (stripLeft s)

/-- Helper for splitOnNl: prepend a character to the first piece. -/
def consHead (c : Char) : List Str → List Str
  | [] => [[c]]
  | h :: t => (c :: h) :: t

/-- Python str.split with separator a single newline: one piece per gap,
the empty string splits to one empty piece. -/
def splitOnNl : Str → List Str
  | [] => [[]]
  | c :: rest =>
    if c == '\n' then [] :: splitOnNl rest
    else consHead c (splitOnNl rest)

/-- Python join with a newline separator. -/
def joinNl : List Str → Str
  | [] => []
  | [s] => s
  | s :: t :: rest => s ++ '\n' :: joinNl (t :: rest)

/-- Python join with a space separator. -/
def joinSp : List Str → Str
  | [] => []
  | [s] => s
  | s :: t :: rest => s ++ ' ' :: joinSp (t :: rest)

/-- Case-insensitive test that pat (given lower-case) is a prefix of s,
the IGNORECASE literal matching of the source patterns. -/
def ciStartsWith (pat s : Str) : Bool :=
  ((s.take pat.length).map lowerC) == pat

/-- re.search for a literal pattern pat (lower-case ASCII) under
re.IGNORECASE, keeping only occurrences followed by at least one more
character (every source pattern continues with a group needing one
character).  Scans start positions left to right, exactly like the
Python engine, and returns the remainder of the line after the matched
literal. -/
def searchCI (pat : Str) : Str → Option Str
  | [] => none
  | c :: rest =>
    if ciStartsWith pat (c :: rest) && !((c :: rest).drop pat.length).isEmpty
    then some ((c :: rest).drop pat.length)
    else searchCI pat rest

/-- Whether the pattern backslash-s + A-Z+ + colon (under IGNORECASE, so
any-case letters) matches at the start of s.  Since letters and the
colon are not whitespace, the whitespace part must be the maximal
leading whitespace run, the letter part the maximal following letter
run, and a colon must come next. -/
def isLabelBoundaryCI (s : Str) : Bool :=
  let w := s.takeWhile pyIsSpace
  let r1 := s.dropWhile pyIsSpace
  !w.isEmpty &&
    (let ls := r1.takeWhile isLetterCI
     let r2 := r1.dropWhile isLetterCI
     !ls.isEmpty && r2.head? == some ':')

/-- Same as isLabelBoundaryCI but case sensitive (upper-case letters
only), for the flag-free re.split in the RFL branch (src line 93). -/
def isLabelBoundaryU (s : Str) : Bool :=
  let w := s.takeWhile pyIsSpace
  let r1 := s.dropWhile pyIsSpace
  !w.isEmpty &&
    (let ls := r1.takeWhile isUpperA
     let r2 := r1.dropWhile isUpperA
     !ls.isEmpty && r2.head? == some ':')

/-- The lazy group of the patterns CS:/ES:/NP: + backslash-s* + lazy
dot-plus + (ws label colon alternated with end): the group extends to
the first position (after at least one character) where a whitespace
preceded label follows, else to the end of the line.  The input here is
the line remainder with leading whitespace removed (the greedy
backslash-s* part), so a boundary at position zero cannot occur. -/
def labelTruncCI : Str → Str
  | [] => []
  | c :: rest => if isLabelBoundaryCI (c :: rest) then [] else c :: labelTruncCI rest

/-- First piece of re.split on ws + upper-case label + colon: cut at the
leftmost position where that pattern matches (src line 93). -/
def labelTruncU : Str → Str
  | [] => []
  | c :: rest => if isLabelBoundaryU (c :: rest) then [] else c :: labelTruncU rest

/-- group(1).strip() of the single-line field patterns, given the line
remainder r after the matched label.  Derivation from the Python
semantics of label + backslash-s* + lazy-dot-plus + (ws label | end):
the greedy backslash-s* takes the maximal leading whitespace of r; if a
character remains, the lazy group runs from there to the first
whitespace-preceded label or the end; if r is pure whitespace the engine
backtracks one character into the group, which then strips to empty.
In every case the stripped group equals
pyStrip (labelTruncCI (stripLeft r)). -/
def captureValue (r : Str) : Str := pyStrip (labelTruncCI (stripLeft r))

/-- re.search of CS: + ws* + lazy group + (ws label | end), IGNORECASE,
returning group(1).strip() (src line 70). -/
def csSearch (line : Str) : Option Str :=
  (searchCI ['c', 's', ':'] line).map captureValue

/-- re.search of ES: + ws* + lazy group + (ws label | end), IGNORECASE
(src line 76). -/
def esSearch (line : Str) : Option Str :=
  (searchCI ['e', 's', ':'] line).map captureValue

/-- re.search of (NOTICE PERIOD|NP): + ws* + lazy group + (ws label |
end), IGNORECASE (src line 82).  At each start position the alternation
tries NOTICE PERIOD first, then NP; a position only matches when at
least one character follows the matched label. -/
def npSearch : Str → Option Str
  | [] => none
  | c :: rest =>
    let s := c :: rest
    let long : Str := ['n', 'o', 't', 'i', 'c', 'e', ' ', 'p', 'e', 'r', 'i', 'o', 'd', ':']
    let short : Str := ['n', 'p', ':']
    if ciStartsWith long s && !(s.drop 14).isEmpty then some (captureValue (s.drop 14))
    else if ciStartsWith short s && !(s.drop 3).isEmpty then some (captureValue (s.drop 3))
    else npSearch rest

/-- re.search of RFL: + ws* + greedy dot-plus, IGNORECASE, returning
group(1).strip() (src line 88).  The greedy backslash-s* takes the
maximal leading whitespace of the remainder r and the group takes the
rest; when r is pure whitespace the engine backtracks one character.
Either way group(1).strip() equals pyStrip r. -/
def rflSearch (line : Str) : Option Str :=
  (searchCI ['r', 'f', 'l', ':'] line).map pyStrip

/-- re.match of caret + A-Z+ + colon + ws, IGNORECASE (src line 100):
a maximal, nonempty any-case letter run from the start, a colon, and one
whitespace character after it. -/
def labelWsMatch (l : Str) : Bool :=
  let ls := l.takeWhile isLetterCI
  let r := l.dropWhile isLetterCI
  !ls.isEmpty &&
    match r with
    | ':' :: c :: _ => pyIsSpace c
    | _ => false

/-- re.match of caret + A-Z+ + colon + end, case sensitive
(src line 102). -/
def labelColonEnd (l : Str) : Bool :=
  let ls := l.takeWhile isUpperA
  let r := l.dropWhile isUpperA
  !ls.isEmpty && r == [':']

/-- re.match of caret + upper lower+ space upper lower+ + end, the name
pattern of the fallback segmentation (src line 178). -/
def nameRe (l : Str) : Bool :=
  match l with
  | [] => false
  | c :: rest =>
    isUpperA c &&
      (let ls := rest.takeWhile isLowerA
       let r := rest.dropWhile isLowerA
       !ls.isEmpty &&
         match r with
         | ' ' :: c2 :: rest2 =>
           isUpperA c2 &&
             (let ls2 := rest2.takeWhile isLowerA
              let r2 := rest2.dropWhile isLowerA
              !ls2.isEmpty && r2.isEmpty)
         | _ => false)

/-- The literal NA default of the source. -/
def NA : Str := ['N', 'A']

/-- The suffix appended to bold-sourced fields (src line 125). -/
def BOLDTAG : Str := [' ', '[', 'B', 'O', 'L', 'D', ']']

/-- Loop state of extract_from_text_lines (src lines 53 to 103): the
three single-line fields, the collected RFL fragments, and the RFL
capture flag. -/
structure ExtState where
  cs : Str
  es : Str
  np : Str
  rflLines : List Str
  rflStarted : Bool
deriving DecidableEq, Repr

/-- One iteration of the extract_from_text_lines loop (src lines 64 to
103): strip the line, skip it when blank, then try the CS, ES, NP and
RFL patterns in that order (a match consumes the line), and otherwise,
when RFL capture is open, close it on a label-plus-whitespace line, skip
a bare upper-case label line, and append any other line. -/
def stepLine (st : ExtState) (line0 : Str) : ExtState :=
  let line := pyStrip line0
  if line = [] then st
  else
    match csSearch line with
    | some v => { st with cs := v }
    | none =>
      match esSearch line with
      | some v => { st with es := v }
      | none =>
        match npSearch line with
        | some v => { st with np := v }
        | none =>
          match rflSearch line with
          | some content =>
            let c := pyStrip (labelTruncU content)
            { st with rflStarted := true,
                      rflLines := st.rflLines ++ (if c = [] then [] else [c]) }
          | none =>
            if st.rflStarted then
              if labelWsMatch line then { st with rflStarted := false }
              else if labelColonEnd line then st
              else { st with rflLines := st.rflLines ++ [line] }
            else st

/-- The initial state of extract_from_text_lines. -/
def initState : ExtState := ⟨NA, NA, NA, [], false⟩

/-- The loop of extract_from_text_lines over all lines. -/
def extractLines (ls : List Str) : ExtState := ls.foldl stepLine initState

/-- The four extracted fields returned by extract_from_text_lines. -/
structure Fields where
  cs : Str
  es : Str
  np : Str
  rflVal : Str
deriving DecidableEq, Repr

/-- extract_from_text_lines (src lines 53 to 109): run the loop, then
set RFL to the space-join of the collected fragments, stripped, when any
fragment was collected. -/
def extract_from_text_lines (ls : List Str) : Fields :=
  let st := extractLines ls
  ⟨st.cs, st.es, st.np, if st.rflLines = [] then NA else pyStrip (joinSp st.rflLines)⟩

/-- The output row of the extractor (src lines 37 to 44). -/
structure Record where
  firstName : Str
  cs : Str
  es : Str
  np : Str
  rflVal : Str
  summary : Str
deriving DecidableEq, Repr

/-- The bold-over-regular merge of one field (src lines 121 to 127): a
non-NA bold value wins and is tagged, else a non-NA regular value, else
NA. -/
def mergeField (b r : Str) : Str :=
  if b ≠ NA then b ++ BOLDTAG else if r ≠ NA then r else NA

/-- extract_candidate_info_from_page_enhanced (src lines 27 to 129):
split the stripped page text into lines, take the first nonempty first
line as the name, run extract_from_text_lines on the plain lines and,
when the bold text strips nonempty, on the bold lines, then merge with
bold priority; the summary is the stripped page text. -/
def extract_candidate_info_from_page_enhanced (pageText boldText : Str) : Record :=
  let lines := splitOnNl (pyStrip pageText)
  let firstName :=
    match lines with
    | [] => NA
    | l0 :: _ => let f := pyStrip l0; if f ≠ [] then f else NA
  let reg := extract_from_text_lines lines
  let boldF :=
    if pyStrip boldText ≠ [] then extract_from_text_lines (splitOnNl (pyStrip boldText))
    else (⟨NA, NA, NA, NA⟩ : Fields)
  { firstName := firstName
    cs := mergeField boldF.cs reg.cs
    es := mergeField boldF.es reg.es
    np := mergeField boldF.np reg.np
    rflVal := mergeField boldF.rflVal reg.rflVal
    summary := pyStrip pageText }

/-- A docx paragraph as exposed by the document reader: its plain text
and its runs (text with a bold flag). -/
structure Paragraph where
  text : Str
  runs : List (Str × Bool)
deriving DecidableEq, Repr

/-- extract_bold_text_from_paragraph (src lines 16 to 25): the stripped
texts of the bold runs whose stripped text is nonempty, space-joined. -/
def extract_bold_text_from_paragraph (p : Paragraph) : Str :=
  joinSp ((p.runs.filter (fun r => r.2 && !(pyStrip r.1).isEmpty)).map (fun r => pyStrip r.1))

/-- The retained paragraphs (src lines 143 to 146): stripped texts,
empty ones dropped. -/
def retainedParas (paras : List Paragraph) : List Str :=
  (paras.map (fun p => pyStrip p.text)).filter (fun t => !t.isEmpty)

/-- all_bold_text (src lines 148 to 151): the nonempty bold text of each
paragraph whose own text is retained, newline-joined. -/
def fullBoldText (paras : List Paragraph) : Str :=
  joinNl (((paras.filter (fun p => !(pyStrip p.text).isEmpty)).map
    extract_bold_text_from_paragraph).filter (fun b => !b.isEmpty))

/-- Fueled worker for re.split on newline + ws* + newline + ws* +
newline (src line 158).  A match starts at a newline whose maximal
whitespace run contains at least three newlines; by greediness the match
extends to the last newline of that run; re.split removes the matched
separator and continues after it.  The fuel is the string length, which
always suffices since each step consumes at least one character. -/
def split3nlAux : Nat → Str → List Str
  | 0, s => [s]
  | fuel + 1, s =>
    match s with
    | [] => [[]]
    | c :: rest =>
      if c = '\n' ∧ 3 ≤ ((c :: rest).takeWhile pyIsSpace).count '\n' then
        let run := (c :: rest).takeWhile pyIsSpace
        let sepLen := run.length - (run.reverse.takeWhile (fun x => !(x == '\n'))).length
        [] :: split3nlAux fuel ((c :: rest).drop sepLen)
      else consHead c (split3nlAux fuel rest)

/-- re.split of the triple-newline separator over the reconstructed
text (src line 158). -/
def split3nl (s : Str) : List Str := split3nlAux s.length s

/-- State of the fallback name-split loop (src lines 165 to 188). -/
structure FBState where
  pages : List Str
  cur : List Str
deriving DecidableEq, Repr

/-- Body of the fallback loop for index i (src lines 169 to 184): strip
the line, skip blanks, flush the current section when the index is
positive, more than five lines are accumulated and the line matches the
name pattern, then append the line. -/
def fbStepAt (i : Nat) (st : FBState) (line0 : Str) : FBState :=
  let line := pyStrip line0
  if line = [] then st
  else
    let st' :=
      if 0 < i ∧ 5 < st.cur.length ∧ nameRe line then
        if st.cur ≠ [] then ⟨st.pages ++ [joinNl st.cur], []⟩ else st
      else st
    ⟨st'.pages, st'.cur ++ [line]⟩

/-- The enumerate loop of the fallback split. -/
def fbGo (i : Nat) (st : FBState) : List Str → FBState
  | [] => st
  | l :: rest => fbGo (i + 1) (fbStepAt i st l) rest

/-- The fallback name-pattern split (src lines 164 to 188): iterate over
the lines of the full text and flush the trailing section. -/
def fallbackSplit (fullText : Str) : List Str :=
  let fin := fbGo 0 ⟨[], []⟩ (splitOnNl fullText)
  if fin.cur ≠ [] then fin.pages ++ [joinNl fin.cur] else fin.pages

/-- The pages produced by the segmenter (src lines 153 to 188): join the
retained paragraphs, split on the triple-newline separator, strip and
drop empty pieces, and when exactly one page remains, use the fallback
name split instead. -/
def segPages (paras : List Paragraph) : List Str :=
  let fullText := joinNl (retainedParas paras)
  let pages0 := ((split3nl fullText).map pyStrip).filter (fun x => !x.isEmpty)
  if pages0.length = 1 then fallbackSplit fullText else pages0

/-- extract_pages_from_docx_with_bold (src lines 131 to 202): each page
is paired with the bold text of the whole document (src line 197). -/
def extract_pages_from_docx_with_bold (paras : List Paragraph) : List (Str × Str) :=
  (segPages paras).map (fun pg => (pg, fullBoldText paras))

/-- The extraction loop of main (src lines 266 to 274): one record per
section whose regular text strips nonempty. -/
def pipeline (paras : List Paragraph) : List Record :=
  ((extract_pages_from_docx_with_bold paras).filter
      (fun s => !(pyStrip s.1).isEmpty)).map
    (fun s => extract_candidate_info_from_page_enhanced s.1 s.2)

/-- A string is newline sparse when no whitespace run reachable as a
suffix prefix contains two newlines; the joined retained paragraphs are
of this shape, so the triple-newline separator never matches in them. -/
def NlSparse (s : Str) : Prop :=
  ∀ t, t <:+ s → ((t.takeWhile pyIsSpace).count '\n') ≤ 1

/-- Which lines the CS branch of the loop consumes: those where the CS
pattern matches the stripped line (the CS pattern is tested first, so
any such line is consumed by it). -/
def csTaken (l : Str) : Option Str := csSearch (pyStrip l)

/-- Which lines the ES branch consumes: the CS pattern must have failed
first (fixed priority order of the loop). -/
def esTaken (l : Str) : Option Str :=
  if csSearch (pyStrip l) = none then esSearch (pyStrip l) else none

/-- Which lines the NP branch consumes: CS and ES must have failed. -/
def npTaken (l : Str) : Option Str :=
  if csSearch (pyStrip l) = none ∧ esSearch (pyStrip l) = none then npSearch (pyStrip l)
  else none

/-- Short constructor for character lists from string literals. -/
def chars (s : String) : Str := s.data

/-- The end-to-end scenario document of the specification: two
candidates separated by three blank paragraphs, no bold runs. -/
def c1doc : List Paragraph :=
  [⟨chars "JOHN DOE", []⟩, ⟨chars "CS: 500k", []⟩, ⟨chars "ES: 700k", []⟩,
   ⟨chars "NOTICE PERIOD: 30 days", []⟩, ⟨chars "RFL: better opportunity", []⟩,
   ⟨chars "", []⟩, ⟨chars "", []⟩, ⟨chars "", []⟩,
   ⟨chars "JANE SMITH", []⟩, ⟨chars "CS: 600k", []⟩]

/-- A two-candidate document without any bold run: the fallback name
split separates it before the line Jane Roe. -/
def bpDocA : List Paragraph :=
  [⟨chars "John Doe", []⟩, ⟨chars "Aa", []⟩, ⟨chars "Bb", []⟩, ⟨chars "Cc", []⟩,
   ⟨chars "Dd", []⟩, ⟨chars "Ee", []⟩, ⟨chars "Ff", []⟩,
   ⟨chars "Jane Roe", []⟩, ⟨chars "CS: 1", []⟩]

/-- The same document as bpDocA except that one paragraph of the first
section carries a bold run; the paragraph texts are unchanged, so the
sections are identical to those of bpDocA. -/
def bpDocB : List Paragraph :=
  [⟨chars "John Doe", []⟩, ⟨chars "Aa", [(chars "CS: 99", true)]⟩, ⟨chars "Bb", []⟩,
   ⟨chars "Cc", []⟩, ⟨chars "Dd", []⟩, ⟨chars "Ee", []⟩, ⟨chars "Ff", []⟩,
   ⟨chars "Jane Roe", []⟩, ⟨chars "CS: 1", []⟩]

/-- A one-candidate document used to instantiate the partition and the
global-bold statements. -/
def docW : List Paragraph :=
  [⟨chars "Amy May", [(chars "ES: 9", true)]⟩, ⟨chars "CS: 5", []⟩]

/-- A line list with repeated CS, ES and NP labels, for the last-match
statement. -/
def c10lines : List Str :=
  [chars "CS: 1", chars "CS: 2", chars "ES: 3", chars "ES: 4", chars "NP: 5", chars "NP: 6"]

/- ------------------------------------------------------------------ -/
/- Helper lemmas on the string primitives.                             -/
/- ------------------------------------------------------------------ -/

theorem splitOnNl_ne_nil (s : Str) : splitOnNl s ≠ [] := by
  induction s with
  | nil => simp [splitOnNl]
  | cons c rest ih =>
    simp only [splitOnNl]
    split
    · simp
    · cases h : splitOnNl rest with
      | nil => exact absurd h ih
      | cons a t => simp [consHead]

theorem joinNl_cons_cons (c : Char) (a : Str) (t : List Str) :
    joinNl ((c :: a) :: t) = c :: joinNl (a :: t) := by
  cases t <;> simp [joinNl]

theorem joinNl_splitOnNl (s : Str) : joinNl (splitOnNl s) = s := by
  induction s with
  | nil => rfl
  | cons c rest ih =>
    simp only [splitOnNl]
    by_cases h : c = '\n'
    · simp only [h, beq_self_eq_true, if_true]
      obtain ⟨a, t, h2⟩ : ∃ a t, splitOnNl rest = a :: t := by
        cases hs : splitOnNl rest with
        | nil => exact absurd hs (splitOnNl_ne_nil rest)
        | cons a t => exact ⟨a, t, rfl⟩
      rw [h2]
      show joinNl ([] :: a :: t) = '\n' :: rest
      simp only [joinNl, List.nil_append]
      rw [← h2, ih]
    · have hb : (c == '\n') = false := by simpa using h
      rw [hb]
      simp only [Bool.false_eq_true, if_false]
      obtain ⟨a, t, h2⟩ : ∃ a t, splitOnNl rest = a :: t := by
        cases hs : splitOnNl rest with
        | nil => exact absurd hs (splitOnNl_ne_nil rest)
        | cons a t => exact ⟨a, t, rfl⟩
      rw [h2]
      show joinNl ((c :: a) :: t) = c :: rest
      rw [joinNl_cons_cons, ← h2, ih]

theorem splitOnNl_no_nl (s : Str) (h : ('\n' : Char) ∉ s) : splitOnNl s = [s] := by
  induction s with
  | nil => rfl
  | cons c rest ih =>
    have hc : c ≠ '\n' := fun he => h (he ▸ List.mem_cons_self c rest)
    have hrest : ('\n' : Char) ∉ rest := fun hm => h (List.mem_cons_of_mem c hm)
    simp only [splitOnNl]
    have hb : (c == '\n') = false := by simpa using hc
    rw [hb]
    simp only [Bool.false_eq_true, if_false]
    rw [ih hrest]
    rfl

theorem splitOnNl_append_nl (p t : Str) (h : ('\n' : Char) ∉ p) :
    splitOnNl (p ++ '\n' :: t) = p :: splitOnNl t := by
  induction p with
  | nil => simp [splitOnNl]
  | cons c rest ih =>
    have hc : c ≠ '\n' := fun he => h (he ▸ List.mem_cons_self c rest)
    have hrest : ('\n' : Char) ∉ rest := fun hm => h (List.mem_cons_of_mem c hm)
    simp only [List.cons_append, splitOnNl]
    have hb : (c == '\n') = false := by simpa using hc
    rw [hb]
    simp only [Bool.false_eq_true, if_false]
    show consHead c (splitOnNl (rest ++ '\n' :: t)) = (c :: rest) :: splitOnNl t
    rw [ih hrest]
    rfl

theorem splitOnNl_joinNl (ps : List Str) (hne : ps ≠ [])
    (h : ∀ p ∈ ps, ('\n' : Char) ∉ p) : splitOnNl (joinNl ps) = ps := by
  induction ps with
  | nil => exact absurd rfl hne
  | cons p rest ih =>
    cases rest with
    | nil =>
      show splitOnNl (joinNl [p]) = [p]
      simp only [joinNl]
      exact splitOnNl_no_nl p (h p (List.mem_cons_self p []))
    | cons q rest2 =>
      show splitOnNl (joinNl (p :: q :: rest2)) = p :: q :: rest2
      simp only [joinNl]
      rw [splitOnNl_append_nl p _ (h p (List.mem_cons_self _ _))]
      rw [ih (by simp) (fun x hx => h x (List.mem_cons_of_mem p hx))]

theorem dropWhile_head_false {p : Char → Bool} {l : Str} {c : Char} {t : Str}
    (h : l.dropWhile p = c :: t) : p c = false := by
  induction l with
  | nil => simp at h
  | cons a l ih =>
    by_cases ha : p a
    · rw [List.dropWhile_cons_of_pos ha] at h
      exact ih h
    · rw [List.dropWhile_cons_of_neg ha] at h
      cases h
      simpa using ha

theorem dropWhile_suffix' (p : Char → Bool) (l : Str) : l.dropWhile p <:+ l := by
  induction l with
  | nil => exact List.suffix_rfl
  | cons a t ih =>
    by_cases h : p a
    · rw [List.dropWhile_cons_of_pos h]
      exact ih.trans (List.suffix_cons a t)
    · rw [List.dropWhile_cons_of_neg h]

theorem getLast?_reverse' {α : Type} (l : List α) : l.reverse.getLast? = l.head? := by
  cases l with
  | nil => rfl
  | cons a t => simp [List.getLast?_concat]

theorem getLast?_eq_reverse_head? {α : Type} (l : List α) : l.getLast? = l.reverse.head? := by
  have h := getLast?_reverse' l.reverse
  rw [List.reverse_reverse] at h
  exact h

theorem getLast?_append_right {α : Type} (l l' : List α) (h : l' ≠ []) :
    (l ++ l').getLast? = l'.getLast? := by
  rw [getLast?_eq_reverse_head?, getLast?_eq_reverse_head?, List.reverse_append]
  cases hr : l'.reverse with
  | nil => exact absurd (by simpa using hr) h
  | cons a t => simp

theorem stripLeft_head_false (s : Str) (c : Char) (t : Str)
    (h : stripLeft s = c :: t) : pyIsSpace c = false := dropWhile_head_false h

theorem stripRight_prefix (s : Str) : stripRight s <+: s := by
  apply List.reverse_suffix.mp
  simpa [stripRight] using dropWhile_suffix' pyIsSpace s.reverse

theorem stripRight_head (s : Str) (c : Char) (t : Str)
    (h : stripRight s = c :: t) : s.head? = some c := by
  obtain ⟨r, hr⟩ := stripRight_prefix s
  rw [← hr, h]
  rfl

theorem stripRight_getLast?_false (s : Str) (c : Char)
    (h : (stripRight s).getLast? = some c) : pyIsSpace c = false := by
  rw [stripRight, getLast?_reverse'] at h
  cases hd : s.reverse.dropWhile pyIsSpace with
  | nil => rw [hd] at h; simp at h
  | cons a t =>
    rw [hd] at h
    simp only [List.head?_cons, Option.some.injEq] at h
    subst h
    exact dropWhile_head_false hd

theorem stripRight_fix (s : Str)
    (h : ∀ c, s.getLast? = some c → pyIsSpace c = false) : stripRight s = s := by
  cases hs : s.reverse with
  | nil =>
    have : s = [] := by simpa using congrArg List.reverse hs
    simp [this, stripRight]
  | cons c t =>
    have hlast : s.getLast? = some c := by
      rw [getLast?_eq_reverse_head?, hs]; rfl
    have hc : pyIsSpace c = false := h c hlast
    rw [stripRight, hs, List.dropWhile_cons_of_neg (by simp [hc]), ← hs]
    simp

theorem pyStrip_head_false (s : Str) (c : Char) (t : Str)
    (h : pyStrip s = c :: t) : pyIsSpace c = false := by
  have hh := stripRight_head (stripLeft s) c t h
  cases hsl : stripLeft s with
  | nil => rw [hsl] at hh; simp at hh
  | cons a u =>
    rw [hsl] at hh
    simp only [List.head?_cons, Option.some.injEq] at hh
    subst hh
    exact stripLeft_head_false s a u hsl

theorem pyStrip_getLast?_false (s : Str) (c : Char)
    (h : (pyStrip s).getLast? = some c) : pyIsSpace c = false :=
  stripRight_getLast?_false (stripLeft s) c h

theorem pyStrip_fix (s : Str) (c : Char) (t : Str) (hs : s = c :: t)
    (hc : pyIsSpace c = false)
    (hl : ∀ d, s.getLast? = some d → pyIsSpace d = false) : pyStrip s = s := by
  have h1 : stripLeft s = s := by
    rw [hs, stripLeft, List.dropWhile_cons_of_neg (by simp [hc])]
  rw [pyStrip, h1]
  exact stripRight_fix s hl

theorem pyStrip_idem (s : Str) : pyStrip (pyStrip s) = pyStrip s := by
  cases hp : pyStrip s with
  | nil => rfl
  | cons c t =>
    exact pyStrip_fix (c :: t) c t rfl (pyStrip_head_false s c t hp)
      (fun d hd => pyStrip_getLast?_false s d (by rw [hp]; exact hd))

theorem pyStrip_sublist (s : Str) : List.Sublist (pyStrip s) s := by
  have h1 : stripRight (stripLeft s) <+: stripLeft s := stripRight_prefix _
  have h2 : stripLeft s <:+ s := dropWhile_suffix' pyIsSpace s
  exact (h1.sublist).trans h2.sublist

theorem pyStrip_not_mem (s : Str) (a : Char) (h : a ∉ s) : a ∉ pyStrip s :=
  fun hm => h ((pyStrip_sublist s).subset hm)

/- ------------------------------------------------------------------ -/
/- Lemmas for the segmenter: the triple-newline split is the identity  -/
/- on texts without close newline pairs, and the fallback loop         -/
/- partitions its input lines.                                         -/
/- ------------------------------------------------------------------ -/

theorem suffix_append_cases {t a b : Str} (h : t <:+ a ++ b) :
    t <:+ b ∨ ∃ a', a' <:+ a ∧ a' ≠ [] ∧ t = a' ++ b := by
  induction a with
  | nil => left; simpa using h
  | cons x a ih =>
    rw [List.cons_append] at h
    rcases List.suffix_cons_iff.mp h with h1 | h2
    · right
      exact ⟨x :: a, List.suffix_rfl, by simp, by simpa using h1⟩
    · rcases ih h2 with h3 | ⟨a', hs, hne, he⟩
      · left; exact h3
      · right; exact ⟨a', hs.trans (List.suffix_cons x a), hne, he⟩

theorem takeWhile_append_stop {p : Char → Bool} {a : Str} (b : Str)
    (hc : ∃ c ∈ a, p c = false) : (a ++ b).takeWhile p = a.takeWhile p := by
  induction a with
  | nil => obtain ⟨c, hm, _⟩ := hc; simp at hm
  | cons x a ih =>
    by_cases hx : p x
    · have hc' : ∃ c ∈ a, p c = false := by
        obtain ⟨c, hm, hf⟩ := hc
        rcases List.mem_cons.mp hm with h1 | h2
        · subst h1; rw [hx] at hf; simp at hf
        · exact ⟨c, h2, hf⟩
      rw [List.cons_append, List.takeWhile_cons_of_pos hx,
        List.takeWhile_cons_of_pos hx, ih hc']
    · rw [List.cons_append, List.takeWhile_cons_of_neg hx, List.takeWhile_cons_of_neg hx]

theorem takeWhile_nil_of_head {p : Char → Bool} {l : Str} {c : Char}
    (hh : l.head? = some c) (hc : p c = false) : l.takeWhile p = [] := by
  cases l with
  | nil => rfl
  | cons a t =>
    simp only [List.head?_cons, Option.some.injEq] at hh
    subst hh
    exact List.takeWhile_cons_of_neg (by simp [hc])

theorem count_nl_zero {t : Str} (h : ('\n' : Char) ∉ t) (p : Char → Bool) :
    (t.takeWhile p).count '\n' = 0 := by
  apply List.count_eq_zero.mpr
  intro hm
  exact h ((List.takeWhile_prefix p).sublist.subset hm)

theorem nlSparse_suffix {s t : Str} (h : NlSparse s) (ht : t <:+ s) : NlSparse t :=
  fun u hu => h u (hu.trans ht)

theorem joinNl_head? (q : Str) (l : List Str) (hq : q ≠ []) :
    (joinNl (q :: l)).head? = q.head? := by
  cases l with
  | nil => rfl
  | cons r t =>
    show (q ++ '\n' :: joinNl (r :: t)).head? = q.head?
    cases q with
    | nil => exact absurd rfl hq
    | cons c u => simp

theorem joinNl_ne_nil (q : Str) (l : List Str) (hq : q ≠ []) : joinNl (q :: l) ≠ [] := by
  intro h
  have := joinNl_head? q l hq
  rw [h] at this
  cases q with
  | nil => exact hq rfl
  | cons c u => simp at this

theorem nlSparse_joinNl (ps : List Str)
    (h : ∀ p ∈ ps, p ≠ [] ∧
      (∀ c, p.head? = some c → pyIsSpace c = false) ∧
      (∀ c, p.getLast? = some c → pyIsSpace c = false) ∧ ('\n' : Char) ∉ p) :
    NlSparse (joinNl ps) := by
  induction ps with
  | nil =>
    intro t ht
    rw [List.suffix_nil.mp ht]
    simp
  | cons p rest ih =>
    intro t ht
    obtain ⟨hpne, hphead, hplast, hpnl⟩ := h p (List.mem_cons_self p rest)
    cases rest with
    | nil =>
      have htp : t <:+ p := ht
      have : ('\n' : Char) ∉ t := fun hm => hpnl (htp.sublist.subset hm)
      rw [count_nl_zero this]
      omega
    | cons q rest2 =>
      obtain ⟨hqne, hqhead, _, _⟩ := h q (List.mem_cons_of_mem p (List.mem_cons_self q rest2))
      have hexp : joinNl (p :: q :: rest2) = p ++ '\n' :: joinNl (q :: rest2) := rfl
      rw [hexp] at ht
      rcases suffix_append_cases ht with h1 | ⟨a', hs, hane, he⟩
      · rcases List.suffix_cons_iff.mp h1 with h2 | h3
        · subst h2
          have hhead : (joinNl (q :: rest2)).head? = q.head? := joinNl_head? q rest2 hqne
          obtain ⟨c, u, hq⟩ : ∃ c u, q = c :: u := by
            cases q with
            | nil => exact absurd rfl hqne
            | cons c u => exact ⟨c, u, rfl⟩
          have hcq : pyIsSpace c = false := hqhead c (by rw [hq]; rfl)
          have h0 : (joinNl (q :: rest2)).takeWhile pyIsSpace = [] :=
            takeWhile_nil_of_head (by rw [hhead, hq]; rfl) hcq
          rw [List.takeWhile_cons_of_pos (by simp [pyIsSpace]), h0]
          simp
        · exact ih (fun x hx => h x (List.mem_cons_of_mem p hx)) t h3
      · subst he
        have hlast : a'.getLast? = p.getLast? := by
          obtain ⟨pre, hpre⟩ := hs
          rw [← hpre]
          exact (getLast?_append_right pre a' hane).symm
        obtain ⟨c, hc⟩ : ∃ c, a'.getLast? = some c := by
          cases ha : a'.getLast? with
          | none => exact absurd (List.getLast?_eq_none_iff.mp ha) hane
          | some c => exact ⟨c, rfl⟩
        have hcns : pyIsSpace c = false := hplast c (hlast ▸ hc)
        have hcm : c ∈ a' := by
          rw [getLast?_eq_reverse_head?] at hc
          cases hr : a'.reverse with
          | nil => rw [hr] at hc; simp at hc
          | cons x u =>
            rw [hr] at hc
            simp only [List.head?_cons, Option.some.injEq] at hc
            have hxm : x ∈ a'.reverse := by rw [hr]; exact List.mem_cons_self x u
            rw [← hc]
            simpa using hxm
        rw [takeWhile_append_stop _ ⟨c, hcm, hcns⟩]
        have hnl : ('\n' : Char) ∉ a' := fun hm => hpnl (hs.sublist.subset hm)
        rw [count_nl_zero hnl]
        omega

theorem split3nlAux_sparse (fuel : Nat) (s : Str) (h : NlSparse s) :
    split3nlAux fuel s = [s] := by
  induction fuel generalizing s with
  | zero => rfl
  | succ n ih =>
    cases s with
    | nil => rfl
    | cons c rest =>
      simp only [split3nlAux]
      have hc : ¬(c = '\n' ∧ 3 ≤ (((c :: rest).takeWhile pyIsSpace).count '\n')) := by
        rintro ⟨h1, h2⟩
        have := h (c :: rest) List.suffix_rfl
        omega
      rw [if_neg hc]
      rw [ih rest (nlSparse_suffix h (List.suffix_cons c rest))]
      rfl

theorem split3nl_sparse (s : Str) (h : NlSparse s) : split3nl s = [s] :=
  split3nlAux_sparse s.length s h

theorem fbGo_spec (ls : List Str) : ∀ i st,
    (∀ l ∈ ls, pyStrip l = l ∧ l ≠ [] ∧ ('\n' : Char) ∉ l) →
    (∀ x ∈ st.cur, x ≠ [] ∧ ('\n' : Char) ∉ x) →
    (∀ pg ∈ st.pages, ∀ x ∈ splitOnNl pg, x ≠ []) →
    ((fbGo i st ls).pages.map splitOnNl).flatten ++ (fbGo i st ls).cur
        = (st.pages.map splitOnNl).flatten ++ st.cur ++ ls
    ∧ (∀ x ∈ (fbGo i st ls).cur, x ≠ [] ∧ ('\n' : Char) ∉ x)
    ∧ (∀ pg ∈ (fbGo i st ls).pages, ∀ x ∈ splitOnNl pg, x ≠ []) := by
  induction ls with
  | nil =>
    intro i st _ hcur hpages
    refine ⟨by simp [fbGo], hcur, hpages⟩
  | cons l rest ih =>
    intro i st hls hcur hpages
    obtain ⟨hstrip, hlne, hlnl⟩ := hls l (List.mem_cons_self l rest)
    have hrest : ∀ x ∈ rest, pyStrip x = x ∧ x ≠ [] ∧ ('\n' : Char) ∉ x :=
      fun x hx => hls x (List.mem_cons_of_mem l hx)
    have hstep : ((fbStepAt i st l).pages.map splitOnNl).flatten ++ (fbStepAt i st l).cur
          = (st.pages.map splitOnNl).flatten ++ st.cur ++ [l]
        ∧ (∀ x ∈ (fbStepAt i st l).cur, x ≠ [] ∧ ('\n' : Char) ∉ x)
        ∧ (∀ pg ∈ (fbStepAt i st l).pages, ∀ x ∈ splitOnNl pg, x ≠ []) := by
      unfold fbStepAt
      rw [hstrip, if_neg hlne]
      by_cases hcond : 0 < i ∧ 5 < st.cur.length ∧ nameRe l
      · rw [if_pos hcond]
        have hcurne : st.cur ≠ [] := by
          intro hnil
          rw [hnil] at hcond
          simp at hcond
        rw [if_pos hcurne]
        have hsplit : splitOnNl (joinNl st.cur) = st.cur :=
          splitOnNl_joinNl st.cur hcurne (fun x hx => (hcur x hx).2)
        refine ⟨?_, ?_, ?_⟩
        · simp only [List.map_append, List.map_cons, List.map_nil, List.flatten_append,
            List.flatten_cons, List.flatten_nil, hsplit]
          simp [List.append_assoc]
        · intro x hx
          simp only [List.nil_append, List.mem_singleton] at hx
          subst hx
          exact ⟨hlne, hlnl⟩
        · intro pg hpg x hx
          rcases List.mem_append.mp hpg with h1 | h2
          · exact hpages pg h1 x hx
          · simp only [List.mem_singleton] at h2
            subst h2
            rw [hsplit] at hx
            exact (hcur x hx).1
      · rw [if_neg hcond]
        refine ⟨by simp [List.append_assoc], ?_, hpages⟩
        intro x hx
        rcases List.mem_append.mp hx with h1 | h2
        · exact hcur x h1
        · simp only [List.mem_singleton] at h2
          subst h2
          exact ⟨hlne, hlnl⟩
    obtain ⟨hA, hB, hC⟩ := hstep
    obtain ⟨ihA, ihB, ihC⟩ := ih (i + 1) (fbStepAt i st l) hrest hB hC
    refine ⟨?_, ihB, ihC⟩
    show ((fbGo (i + 1) (fbStepAt i st l) rest).pages.map splitOnNl).flatten
        ++ (fbGo (i + 1) (fbStepAt i st l) rest).cur = _
    rw [ihA, hA]
    simp [List.append_assoc]

theorem fallbackSplit_partition (s : Str)
    (h : ∀ l ∈ splitOnNl s, pyStrip l = l ∧ l ≠ [] ∧ ('\n' : Char) ∉ l) :
    ((fallbackSplit s).map splitOnNl).flatten = splitOnNl s
    ∧ ∀ pg ∈ fallbackSplit s, ∀ x ∈ splitOnNl pg, x ≠ [] := by
  obtain ⟨hA, hB, hC⟩ := fbGo_spec (splitOnNl s) 0 ⟨[], []⟩ h (by simp) (by simp)
  simp only [List.map_nil, List.flatten_nil, List.nil_append] at hA
  unfold fallbackSplit
  by_cases hcur : (fbGo 0 ⟨[], []⟩ (splitOnNl s)).cur ≠ []
  · rw [if_pos hcur]
    have hsplit : splitOnNl (joinNl (fbGo 0 ⟨[], []⟩ (splitOnNl s)).cur)
        = (fbGo 0 ⟨[], []⟩ (splitOnNl s)).cur :=
      splitOnNl_joinNl _ hcur (fun x hx => (hB x hx).2)
    constructor
    · simp only [List.map_append, List.map_cons, List.map_nil, List.flatten_append,
        List.flatten_cons, List.flatten_nil, hsplit, List.append_nil]
      exact hA
    · intro pg hpg x hx
      rcases List.mem_append.mp hpg with h1 | h2
      · exact hC pg h1 x hx
      · simp only [List.mem_singleton] at h2
        subst h2
        rw [hsplit] at hx
        exact (hB x hx).1
  · rw [if_neg hcur]
    push_neg at hcur
    rw [hcur, List.append_nil] at hA
    exact ⟨hA, hC⟩

theorem retained_mem (paras : List Paragraph) (h : ∀ p ∈ paras, ('\n' : Char) ∉ p.text)
    (t : Str) (ht : t ∈ retainedParas paras) :
    t ≠ [] ∧ pyStrip t = t ∧ (∀ c, t.head? = some c → pyIsSpace c = false)
    ∧ (∀ c, t.getLast? = some c → pyIsSpace c = false) ∧ ('\n' : Char) ∉ t := by
  unfold retainedParas at ht
  have h1 := List.mem_filter.mp ht
  obtain ⟨p, hp, hpt⟩ := List.mem_map.mp h1.1
  have htne : t ≠ [] := by simpa using h1.2
  subst hpt
  refine ⟨htne, pyStrip_idem _, ?_, fun c hc => pyStrip_getLast?_false p.text c hc,
    pyStrip_not_mem _ _ (h p hp)⟩
  intro c hc
  cases hps : pyStrip p.text with
  | nil => rw [hps] at hc; simp at hc
  | cons a u =>
    rw [hps] at hc
    simp only [List.head?_cons, Option.some.injEq] at hc
    subst hc
    exact pyStrip_head_false p.text a u hps

theorem joinNl_getLast?_false (ps : List Str)
    (h : ∀ p ∈ ps, p ≠ [] ∧ (∀ c, p.getLast? = some c → pyIsSpace c = false)) :
    ∀ c, (joinNl ps).getLast? = some c → pyIsSpace c = false := by
  induction ps with
  | nil => intro c hc; simp [joinNl] at hc
  | cons p rest ih =>
    intro c hc
    cases rest with
    | nil => exact (h p (List.mem_cons_self p [])).2 c hc
    | cons q rest2 =>
      have hexp : joinNl (p :: q :: rest2) = p ++ '\n' :: joinNl (q :: rest2) := rfl
      rw [hexp] at hc
      have hqne := (h q (List.mem_cons_of_mem p (List.mem_cons_self q rest2))).1
      have hjne : joinNl (q :: rest2) ≠ [] := joinNl_ne_nil q rest2 hqne
      rw [getLast?_append_right p _ (by simp)] at hc
      have hstep : ('\n' :: joinNl (q :: rest2)).getLast? = (joinNl (q :: rest2)).getLast? := by
        have := getLast?_append_right ['\n'] (joinNl (q :: rest2)) hjne
        simpa using this
      rw [hstep] at hc
      exact ih (fun x hx => h x (List.mem_cons_of_mem p hx)) c hc

theorem segPages_partition (paras : List Paragraph)
    (h : ∀ p ∈ paras, ('\n' : Char) ∉ p.text) :
    ((segPages paras).map splitOnNl).flatten = retainedParas paras
    ∧ ∀ pg ∈ segPages paras, ∀ x ∈ splitOnNl pg, x ≠ [] := by
  cases hR : retainedParas paras with
  | nil =>
    have hseg : segPages paras = [] := by
      unfold segPages
      rw [hR]
      rfl
    rw [hseg]
    exact ⟨rfl, by simp⟩
  | cons r R' =>
    have hprops : ∀ t ∈ r :: R', t ≠ [] ∧ pyStrip t = t
        ∧ (∀ c, t.head? = some c → pyIsSpace c = false)
        ∧ (∀ c, t.getLast? = some c → pyIsSpace c = false) ∧ ('\n' : Char) ∉ t := by
      rw [← hR]
      exact fun t ht => retained_mem paras h t ht
    have hrne : r ≠ [] := (hprops r (List.mem_cons_self r R')).1
    have hsparse : NlSparse (joinNl (r :: R')) := by
      apply nlSparse_joinNl
      intro p hp
      obtain ⟨h1, _, h3, h4, h5⟩ := hprops p hp
      exact ⟨h1, h3, h4, h5⟩
    have hsplit3 : split3nl (joinNl (r :: R')) = [joinNl (r :: R')] :=
      split3nl_sparse _ hsparse
    obtain ⟨c, u, hrc⟩ : ∃ c u, r = c :: u := by
      cases hq : r with
      | nil => exact absurd hq hrne
      | cons c u => exact ⟨c, u, rfl⟩
    have hhead : (joinNl (r :: R')).head? = some c := by
      rw [joinNl_head? r R' hrne, hrc]
      rfl
    have hcns : pyIsSpace c = false :=
      (hprops r (List.mem_cons_self r R')).2.2.1 c (by rw [hrc]; rfl)
    obtain ⟨t0, ht0⟩ : ∃ t0, joinNl (r :: R') = c :: t0 := by
      cases hj : joinNl (r :: R') with
      | nil => rw [hj] at hhead; simp at hhead
      | cons a b =>
        rw [hj] at hhead
        simp only [List.head?_cons, Option.some.injEq] at hhead
        subst hhead
        exact ⟨b, rfl⟩
    have hfix : pyStrip (joinNl (r :: R')) = joinNl (r :: R') :=
      pyStrip_fix _ c t0 ht0 hcns
        (joinNl_getLast?_false (r :: R')
          (fun p hp => ⟨(hprops p hp).1, (hprops p hp).2.2.2.1⟩))
    have hne : joinNl (r :: R') ≠ [] := joinNl_ne_nil r R' hrne
    have hlines : splitOnNl (joinNl (r :: R')) = r :: R' :=
      splitOnNl_joinNl _ (by simp) (fun p hp => (hprops p hp).2.2.2.2)
    obtain ⟨hA, hB⟩ := fallbackSplit_partition (joinNl (r :: R')) (by
      rw [hlines]
      intro l hl
      obtain ⟨h1, h2, _, _, h5⟩ := hprops l hl
      exact ⟨h2, h1, h5⟩)
    have hbool : ((joinNl (r :: R')).isEmpty) = false := by
      cases hj : joinNl (r :: R') with
      | nil => exact absurd hj hne
      | cons a b => rfl
    have hseg : segPages paras = fallbackSplit (joinNl (r :: R')) := by
      simp only [segPages, hR, hsplit3, List.map_cons, List.map_nil, hfix,
        List.filter_cons, hbool, Bool.not_false, if_true, List.filter_nil,
        List.length_cons, List.length_nil]
    rw [hseg, hA, hlines]
    exact ⟨rfl, hB⟩


/- ------------------------------------------------------------------ -/
/- Lemmas about the extractor loop.                                    -/
/- ------------------------------------------------------------------ -/

theorem csSearch_nil : csSearch [] = none := rfl

theorem stepLine_cs_some (st : ExtState) (l v : Str)
    (h : csSearch (pyStrip l) = some v) : stepLine st l = { st with cs := v } := by
  have hne : pyStrip l ≠ [] := by
    intro h0
    rw [h0, csSearch_nil] at h
    cases h
  simp only [stepLine, h, if_neg hne]

theorem stepLine_cs_none (st : ExtState) (l : Str)
    (h : csSearch (pyStrip l) = none) : (stepLine st l).cs = st.cs := by
  by_cases hb : pyStrip l = []
  · simp [stepLine, hb]
  · simp only [stepLine, h, if_neg hb]
    cases h2 : esSearch (pyStrip l) with
    | some v => rfl
    | none =>
      cases h3 : npSearch (pyStrip l) with
      | some v => rfl
      | none =>
        cases h4 : rflSearch (pyStrip l) with
        | some v => rfl
        | none =>
          by_cases h5 : st.rflStarted
          · simp only [h5, if_true]
            by_cases h6 : labelWsMatch (pyStrip l)
            · simp [h6]
            · simp only [h6, Bool.false_eq_true, if_false]
              by_cases h7 : labelColonEnd (pyStrip l)
              · simp [h7]
              · simp [h7]
          · simp [h5]

theorem stepLine_es_some (st : ExtState) (l v : Str)
    (hcs : csSearch (pyStrip l) = none) (h : esSearch (pyStrip l) = some v) :
    stepLine st l = { st with es := v } := by
  have hne : pyStrip l ≠ [] := by
    intro h0
    rw [h0] at h
    cases h
  simp only [stepLine, hcs, h, if_neg hne]

theorem stepLine_es_none (st : ExtState) (l : Str)
    (hcs : csSearch (pyStrip l) = none) (h : esSearch (pyStrip l) = none) :
    (stepLine st l).es = st.es := by
  by_cases hb : pyStrip l = []
  · simp [stepLine, hb]
  · simp only [stepLine, hcs, h, if_neg hb]
    cases h3 : npSearch (pyStrip l) with
    | some v => rfl
    | none =>
      cases h4 : rflSearch (pyStrip l) with
      | some v => rfl
      | none =>
        by_cases h5 : st.rflStarted
        · simp only [h5, if_true]
          by_cases h6 : labelWsMatch (pyStrip l)
          · simp [h6]
          · simp only [h6, Bool.false_eq_true, if_false]
            by_cases h7 : labelColonEnd (pyStrip l)
            · simp [h7]
            · simp [h7]
        · simp [h5]

theorem stepLine_np_some (st : ExtState) (l v : Str)
    (hcs : csSearch (pyStrip l) = none) (hes : esSearch (pyStrip l) = none)
    (h : npSearch (pyStrip l) = some v) : stepLine st l = { st with np := v } := by
  have hne : pyStrip l ≠ [] := by
    intro h0
    rw [h0] at h
    cases h
  simp only [stepLine, hcs, hes, h, if_neg hne]

theorem stepLine_np_none (st : ExtState) (l : Str)
    (hcs : csSearch (pyStrip l) = none) (hes : esSearch (pyStrip l) = none)
    (h : npSearch (pyStrip l) = none) : (stepLine st l).np = st.np := by
  by_cases hb : pyStrip l = []
  · simp [stepLine, hb]
  · simp only [stepLine, hcs, hes, h, if_neg hb]
    cases h4 : rflSearch (pyStrip l) with
    | some v => rfl
    | none =>
      by_cases h5 : st.rflStarted
      · simp only [h5, if_true]
        by_cases h6 : labelWsMatch (pyStrip l)
        · simp [h6]
        · simp only [h6, Bool.false_eq_true, if_false]
          by_cases h7 : labelColonEnd (pyStrip l)
          · simp [h7]
          · simp [h7]
      · simp [h5]

theorem stepLine_no_match (st : ExtState) (l : Str) (hrs : st.rflStarted = false)
    (hcs : csSearch (pyStrip l) = none) (hes : esSearch (pyStrip l) = none)
    (hnp : npSearch (pyStrip l) = none) (hrf : rflSearch (pyStrip l) = none) :
    stepLine st l = st := by
  by_cases hb : pyStrip l = []
  · simp [stepLine, hb]
  · simp [stepLine, hcs, hes, hnp, hrf, if_neg hb, hrs]

theorem stepLine_label_close (st : ExtState) (l : Str) (hrs : st.rflStarted = true)
    (hcs : csSearch (pyStrip l) = none) (hes : esSearch (pyStrip l) = none)
    (hnp : npSearch (pyStrip l) = none) (hrf : rflSearch (pyStrip l) = none)
    (hws : labelWsMatch (pyStrip l) = true) :
    stepLine st l = { st with rflStarted := false } := by
  have hne : pyStrip l ≠ [] := by
    intro h0
    rw [h0] at hws
    cases hws
  simp [stepLine, hcs, hes, hnp, hrf, if_neg hne, hrs, hws]

theorem stepLine_label_bare (st : ExtState) (l : Str) (hrs : st.rflStarted = true)
    (hcs : csSearch (pyStrip l) = none) (hes : esSearch (pyStrip l) = none)
    (hnp : npSearch (pyStrip l) = none) (hrf : rflSearch (pyStrip l) = none)
    (hws : labelWsMatch (pyStrip l) = false) (hce : labelColonEnd (pyStrip l) = true) :
    stepLine st l = st := by
  have hne : pyStrip l ≠ [] := by
    intro h0
    rw [h0] at hce
    cases hce
  simp [stepLine, hcs, hes, hnp, hrf, if_neg hne, hrs, hws, hce]

theorem stepLine_rfl_append (st : ExtState) (l : Str) (hrs : st.rflStarted = true)
    (hcs : csSearch (pyStrip l) = none) (hes : esSearch (pyStrip l) = none)
    (hnp : npSearch (pyStrip l) = none) (hrf : rflSearch (pyStrip l) = none)
    (hws : labelWsMatch (pyStrip l) = false) (hce : labelColonEnd (pyStrip l) = false)
    (hne : pyStrip l ≠ []) :
    stepLine st l = { st with rflLines := st.rflLines ++ [pyStrip l] } := by
  simp [stepLine, hcs, hes, hnp, hrf, if_neg hne, hrs, hws, hce]

theorem extractLines_id (ls : List Str) : ∀ st : ExtState, st.rflStarted = false →
    (∀ l ∈ ls, csSearch (pyStrip l) = none ∧ esSearch (pyStrip l) = none
      ∧ npSearch (pyStrip l) = none ∧ rflSearch (pyStrip l) = none) →
    ls.foldl stepLine st = st := by
  induction ls with
  | nil => intro st _ _; rfl
  | cons l rest ih =>
    intro st hrs hall
    obtain ⟨h1, h2, h3, h4⟩ := hall l (List.mem_cons_self l rest)
    rw [List.foldl_cons, stepLine_no_match st l hrs h1 h2 h3 h4]
    exact ih st hrs (fun x hx => hall x (List.mem_cons_of_mem l hx))

theorem getLast?_cons_getD (v d : Str) (x : List Str) :
    ((v :: x).getLast?).getD d = (x.getLast?).getD v := by
  cases x with
  | nil => rfl
  | cons a tl =>
    have hstep : (v :: a :: tl).getLast? = (a :: tl).getLast? :=
      getLast?_append_right [v] (a :: tl) (by simp)
    rw [hstep]
    cases hl : (a :: tl).getLast? with
    | none =>
      have := List.getLast?_eq_none_iff.mp hl
      cases this
    | some b => rfl

theorem foldl_cs_last (ls : List Str) : ∀ st : ExtState,
    (ls.foldl stepLine st).cs = ((ls.filterMap csTaken).getLast?).getD st.cs := by
  induction ls with
  | nil => intro st; rfl
  | cons l rest ih =>
    intro st
    rw [List.foldl_cons, List.filterMap_cons]
    cases h : csTaken l with
    | none =>
      rw [ih (stepLine st l), stepLine_cs_none st l h]
    | some v =>
      have hstep : stepLine st l = { st with cs := v } := stepLine_cs_some st l v h
      rw [ih (stepLine st l), hstep, getLast?_cons_getD]

theorem foldl_es_last (ls : List Str) : ∀ st : ExtState,
    (ls.foldl stepLine st).es = ((ls.filterMap esTaken).getLast?).getD st.es := by
  induction ls with
  | nil => intro st; rfl
  | cons l rest ih =>
    intro st
    rw [List.foldl_cons, List.filterMap_cons]
    cases h : esTaken l with
    | none =>
      have hes : (stepLine st l).es = st.es := by
        unfold esTaken at h
        by_cases hcs : csSearch (pyStrip l) = none
        · rw [if_pos hcs] at h
          exact stepLine_es_none st l hcs h
        · cases hv : csSearch (pyStrip l) with
          | none => exact absurd hv hcs
          | some v => rw [stepLine_cs_some st l v hv]
      rw [ih (stepLine st l), hes]
    | some v =>
      have hsplit : csSearch (pyStrip l) = none ∧ esSearch (pyStrip l) = some v := by
        unfold esTaken at h
        by_cases hcs : csSearch (pyStrip l) = none
        · rw [if_pos hcs] at h
          exact ⟨hcs, h⟩
        · rw [if_neg hcs] at h
          cases h
      have hstep : stepLine st l = { st with es := v } :=
        stepLine_es_some st l v hsplit.1 hsplit.2
      rw [ih (stepLine st l), hstep, getLast?_cons_getD]

theorem foldl_np_last (ls : List Str) : ∀ st : ExtState,
    (ls.foldl stepLine st).np = ((ls.filterMap npTaken).getLast?).getD st.np := by
  induction ls with
  | nil => intro st; rfl
  | cons l rest ih =>
    intro st
    rw [List.foldl_cons, List.filterMap_cons]
    cases h : npTaken l with
    | none =>
      have hnp : (stepLine st l).np = st.np := by
        unfold npTaken at h
        by_cases hcs : csSearch (pyStrip l) = none ∧ esSearch (pyStrip l) = none
        · rw [if_pos hcs] at h
          exact stepLine_np_none st l hcs.1 hcs.2 h
        · rcases Decidable.not_and_iff_or_not.mp hcs with h1 | h2
          · cases hv : csSearch (pyStrip l) with
            | none => exact absurd hv h1
            | some v => rw [stepLine_cs_some st l v hv]
          · cases hv : esSearch (pyStrip l) with
            | none => exact absurd hv h2
            | some v =>
              cases hcv : csSearch (pyStrip l) with
              | none => rw [stepLine_es_some st l v hcv hv]
              | some w => rw [stepLine_cs_some st l w hcv]
      rw [ih (stepLine st l), hnp]
    | some v =>
      have hsplit : csSearch (pyStrip l) = none ∧ esSearch (pyStrip l) = none
          ∧ npSearch (pyStrip l) = some v := by
        unfold npTaken at h
        by_cases hcs : csSearch (pyStrip l) = none ∧ esSearch (pyStrip l) = none
        · rw [if_pos hcs] at h
          exact ⟨hcs.1, hcs.2, h⟩
        · rw [if_neg hcs] at h
          cases h
      have hstep : stepLine st l = { st with np := v } :=
        stepLine_np_some st l v hsplit.1 hsplit.2.1 hsplit.2.2
      rw [ih (stepLine st l), hstep, getLast?_cons_getD]


/- ------------------------------------------------------------------ -/
/- Claim theorems.                                                     -/
/- ------------------------------------------------------------------ -/

/-- C1: evaluation of the code on the end-to-end scenario document.
The claim (and the specification) require two sections and two records,
but the code drops blank paragraphs before reconstructing the text
stream (src lines 143 to 146), so the triple-newline separator of src
line 158 never matches, the all-caps line JANE SMITH does not match the
fallback name pattern of src line 178 (and only five lines precede it),
and the whole document becomes one section and one record, with the
second candidate folded into the first record. -/
theorem c1_pipeline_single_record :
    pipeline c1doc =
      [{ firstName := chars "JOHN DOE", cs := chars "600k", es := chars "700k",
         np := chars "30 days", rflVal := chars "better opportunity JANE SMITH",
         summary := chars "JOHN DOE\nCS: 500k\nES: 700k\nNOTICE PERIOD: 30 days\nRFL: better opportunity\nJANE SMITH\nCS: 600k" }] := by
  decide

/-- C2 counterexample: for the section with plain line CS: 10 and
emphasized line CS: 12 the claim requires current salary to be exactly
the string 12, but the code appends the BOLD marker (src line 125). -/
theorem c2_tag_counterexample :
    (extract_candidate_info_from_page_enhanced (chars "X\nCS: 10") (chars "CS: 12")).cs
      ≠ chars "12" := by
  decide

/-- C2 amended: whenever bold extraction yields a non-default value for
a field, the record holds that value with the BOLD marker appended; the
plain-text value is used only when the bold value is the default. -/
theorem c2_bold_precedence_tagged (p b : Str) (hb : pyStrip b ≠ []) :
    ((extract_from_text_lines (splitOnNl (pyStrip b))).cs ≠ NA →
      (extract_candidate_info_from_page_enhanced p b).cs
        = (extract_from_text_lines (splitOnNl (pyStrip b))).cs ++ BOLDTAG)
    ∧ ((extract_from_text_lines (splitOnNl (pyStrip b))).es ≠ NA →
      (extract_candidate_info_from_page_enhanced p b).es
        = (extract_from_text_lines (splitOnNl (pyStrip b))).es ++ BOLDTAG)
    ∧ ((extract_from_text_lines (splitOnNl (pyStrip b))).np ≠ NA →
      (extract_candidate_info_from_page_enhanced p b).np
        = (extract_from_text_lines (splitOnNl (pyStrip b))).np ++ BOLDTAG)
    ∧ ((extract_from_text_lines (splitOnNl (pyStrip b))).rflVal ≠ NA →
      (extract_candidate_info_from_page_enhanced p b).rflVal
        = (extract_from_text_lines (splitOnNl (pyStrip b))).rflVal ++ BOLDTAG) := by
  refine ⟨fun h => ?_, fun h => ?_, fun h => ?_, fun h => ?_⟩ <;>
    simp [extract_candidate_info_from_page_enhanced, mergeField, hb, h]

/-- C2 witness: the amended statement at the CS: 10 / CS: 12 input. -/
theorem c2_bold_precedence_tagged_witness :
    (extract_candidate_info_from_page_enhanced (chars "X\nCS: 10") (chars "CS: 12")).cs
      = (extract_from_text_lines (splitOnNl (pyStrip (chars "CS: 12")))).cs ++ BOLDTAG :=
  (c2_bold_precedence_tagged (chars "X\nCS: 10") (chars "CS: 12") (by decide)).1 (by decide)

/-- C3 counterexample: bpDocA and bpDocB have identical paragraph texts
and differ only in a bold run attached to a paragraph of the first
section, yet the record produced for the second section changes from
current salary 1 to 99 with the BOLD marker: bold runs outside a
section do change its record. -/
theorem c3_outside_bold_interference :
    ((pipeline bpDocA)[1]?).map Record.cs = some (chars "1")
    ∧ ((pipeline bpDocB)[1]?).map Record.cs = some (chars "99 [BOLD]") := by
  decide

/-- C3 amended: the emphasized input paired with every section is the
bold text of the whole document (src line 197), not the bold runs of
that section alone. -/
theorem c3_global_bold (paras : List Paragraph) (sec : Str × Str)
    (h : sec ∈ extract_pages_from_docx_with_bold paras) :
    sec.2 = fullBoldText paras := by
  unfold extract_pages_from_docx_with_bold at h
  obtain ⟨pg, hpg, rfl⟩ := List.mem_map.mp h
  rfl

/-- C3 witness: the amended statement at a concrete document. -/
theorem c3_global_bold_witness :
    ((chars "Amy May\nCS: 5", chars "ES: 9") : Str × Str).2 = fullBoldText docW :=
  c3_global_bold docW (chars "Amy May\nCS: 5", chars "ES: 9") (by decide)

/-- C4 counterexample: after RFL: a opens capture, the line CS: 1
matches the generic label shape, so by the claim it closes capture and
the following line b must not be appended; the code instead consumes
CS: 1 with the CS branch, leaves capture open, and appends b, giving
reason for leaving a b. -/
theorem c4_label_not_closing :
    (extract_candidate_info_from_page_enhanced (chars "N\nRFL: a\nCS: 1\nb") (chars "")).rflVal
      = chars "a b"
    ∧ (extract_candidate_info_from_page_enhanced (chars "N\nRFL: a\nCS: 1\nb") (chars "")).cs
      = chars "1" := by
  decide

/-- C4 amended: once RFL capture is open, a line matched by a field
pattern is consumed as that field and leaves capture open; a line
matching letters-colon-whitespace that matches no field pattern closes
capture without being appended; a bare upper-case label line is skipped
without closing capture; any other nonempty line is appended; the
multi-line example of the specification still holds. -/
theorem c4_rfl_capture_amended :
    (∀ (st : ExtState) (l v : Str), csSearch (pyStrip l) = some v →
      stepLine st l = { st with cs := v })
    ∧ (∀ (st : ExtState) (l : Str), st.rflStarted = true →
      csSearch (pyStrip l) = none → esSearch (pyStrip l) = none →
      npSearch (pyStrip l) = none → rflSearch (pyStrip l) = none →
      labelWsMatch (pyStrip l) = true →
      stepLine st l = { st with rflStarted := false })
    ∧ (∀ (st : ExtState) (l : Str), st.rflStarted = true →
      csSearch (pyStrip l) = none → esSearch (pyStrip l) = none →
      npSearch (pyStrip l) = none → rflSearch (pyStrip l) = none →
      labelWsMatch (pyStrip l) = false → labelColonEnd (pyStrip l) = true →
      stepLine st l = st)
    ∧ (∀ (st : ExtState) (l : Str), st.rflStarted = true →
      csSearch (pyStrip l) = none → esSearch (pyStrip l) = none →
      npSearch (pyStrip l) = none → rflSearch (pyStrip l) = none →
      labelWsMatch (pyStrip l) = false → labelColonEnd (pyStrip l) = false →
      pyStrip l ≠ [] →
      stepLine st l = { st with rflLines := st.rflLines ++ [pyStrip l] })
    ∧ (extract_candidate_info_from_page_enhanced
        (chars "N\nRFL: relocation\nfor family reasons\nCS: 500k") (chars "")).rflVal
      = chars "relocation for family reasons"
    ∧ (extract_candidate_info_from_page_enhanced
        (chars "N\nRFL: relocation\nfor family reasons\nCS: 500k") (chars "")).cs
      = chars "500k" := by
  exact ⟨stepLine_cs_some, stepLine_label_close, stepLine_label_bare,
    stepLine_rfl_append, by decide, by decide⟩

/-- C4 witness: the amended step statements at concrete states. -/
theorem c4_rfl_capture_amended_witness :
    stepLine ⟨NA, NA, NA, [chars "x"], true⟩ (chars "CS: 9")
      = { (⟨NA, NA, NA, [chars "x"], true⟩ : ExtState) with cs := chars "9" }
    ∧ stepLine ⟨NA, NA, NA, [chars "x"], true⟩ (chars "FOO: bar")
      = { (⟨NA, NA, NA, [chars "x"], true⟩ : ExtState) with rflStarted := false } :=
  ⟨c4_rfl_capture_amended.1 ⟨NA, NA, NA, [chars "x"], true⟩ (chars "CS: 9")
      (chars "9") (by decide),
   c4_rfl_capture_amended.2.1 ⟨NA, NA, NA, [chars "x"], true⟩ (chars "FOO: bar")
      rfl (by decide) (by decide) (by decide) (by decide) (by decide)⟩

/-- C5 counterexample: on the line PICS: blah the token CS: appears
only as a non-prefix substring, yet the field is set (re.search scans
the whole line, src line 70), contradicting the prefix-only claim. -/
theorem c5_substring_counterexample :
    (extract_candidate_info_from_page_enhanced (chars "N\nPICS: blah") (chars "")).cs
      ≠ NA := by
  decide

/-- C5 amended: a label triggers extraction wherever it occurs in the
line (case-insensitively, with at least one character after it), prefix
position included: PICS: blah sets current salary to blah, NOTES: blah
sets expected salary to blah, and a label at the line start still
works. -/
theorem c5_substring_trigger :
    (extract_candidate_info_from_page_enhanced (chars "N\nPICS: blah") (chars "")).cs
      = chars "blah"
    ∧ (extract_candidate_info_from_page_enhanced (chars "N\nNOTES: blah") (chars "")).es
      = chars "blah"
    ∧ (extract_candidate_info_from_page_enhanced (chars "N\nCS: direct") (chars "")).cs
      = chars "direct" := by
  decide

/-- C6 counterexample: in CS: 500kES: 600k the label pattern ES: occurs
later on the line, but the captured value is not truncated before it,
because the truncating pattern of src line 70 requires whitespace
before the label. -/
theorem c6_adjacent_label_counterexample :
    (extract_candidate_info_from_page_enhanced (chars "N\nCS: 500kES: 600k") (chars "")).cs
      = chars "500kES: 600k" := by
  decide

/-- C6 amended: the captured value is truncated at the first
whitespace-preceded label occurrence; under IGNORECASE a lower-case
label also truncates, while a label glued to the value without
whitespace does not. -/
theorem c6_truncation_whitespace :
    (extract_candidate_info_from_page_enhanced (chars "N\nCS: 500k ES: 600k") (chars "")).cs
      = chars "500k"
    ∧ (extract_candidate_info_from_page_enhanced (chars "N\nCS: 500k es: 600k") (chars "")).cs
      = chars "500k"
    ∧ (extract_candidate_info_from_page_enhanced (chars "N\nCS: 500kES: 600k") (chars "")).cs
      = chars "500kES: 600k" := by
  decide

/-- C7: the sections produced by the segmenter partition the retained
paragraphs: the concatenation of the section line lists reproduces the
retained paragraph sequence in order (so each retained paragraph lies
in exactly one section, in document order), and no section is empty or
has an empty line.  Proved for documents whose paragraph texts contain
no embedded newline, the shape the document reader interface
produces. -/
theorem c7_sections_partition (paras : List Paragraph)
    (h : ∀ p ∈ paras, ('\n' : Char) ∉ p.text) :
    ((segPages paras).map splitOnNl).flatten = retainedParas paras
    ∧ ∀ pg ∈ segPages paras, ∀ x ∈ splitOnNl pg, x ≠ [] :=
  segPages_partition paras h

/-- C7 witness: the partition statement at a concrete document. -/
theorem c7_sections_partition_witness :
    ((segPages bpDocA).map splitOnNl).flatten = retainedParas bpDocA :=
  (c7_sections_partition bpDocA (by decide)).1

/-- C8: when no plain or bold line matches any of the four label
patterns, every extracted field keeps its NA default; the extractor is
total, so a complete record is still produced. -/
theorem c8_default_na (p b : Str)
    (hp : ∀ l ∈ splitOnNl (pyStrip p), csSearch (pyStrip l) = none
      ∧ esSearch (pyStrip l) = none ∧ npSearch (pyStrip l) = none
      ∧ rflSearch (pyStrip l) = none)
    (hb : ∀ l ∈ splitOnNl (pyStrip b), csSearch (pyStrip l) = none
      ∧ esSearch (pyStrip l) = none ∧ npSearch (pyStrip l) = none
      ∧ rflSearch (pyStrip l) = none) :
    (extract_candidate_info_from_page_enhanced p b).cs = NA
    ∧ (extract_candidate_info_from_page_enhanced p b).es = NA
    ∧ (extract_candidate_info_from_page_enhanced p b).np = NA
    ∧ (extract_candidate_info_from_page_enhanced p b).rflVal = NA := by
  have hreg : extract_from_text_lines (splitOnNl (pyStrip p)) = ⟨NA, NA, NA, NA⟩ := by
    unfold extract_from_text_lines
    rw [show extractLines (splitOnNl (pyStrip p)) = initState from
      extractLines_id _ initState rfl hp]
    rfl
  by_cases hbne : pyStrip b = []
  · simp [extract_candidate_info_from_page_enhanced, hbne, hreg, mergeField]
  · have hbold : extract_from_text_lines (splitOnNl (pyStrip b)) = ⟨NA, NA, NA, NA⟩ := by
      unfold extract_from_text_lines
      rw [show extractLines (splitOnNl (pyStrip b)) = initState from
        extractLines_id _ initState rfl hb]
      rfl
    simp [extract_candidate_info_from_page_enhanced, hbne, hreg, hbold, mergeField]

/-- C8 witness: the default statement at a concrete label-free input. -/
theorem c8_default_na_witness :
    (extract_candidate_info_from_page_enhanced (chars "hello\nworld") (chars "")).cs = NA
    ∧ (extract_candidate_info_from_page_enhanced (chars "hello\nworld") (chars "")).es = NA
    ∧ (extract_candidate_info_from_page_enhanced (chars "hello\nworld") (chars "")).np = NA
    ∧ (extract_candidate_info_from_page_enhanced (chars "hello\nworld") (chars "")).rflVal
      = NA :=
  c8_default_na (chars "hello\nworld") (chars "") (by decide) (by decide)

/-- C9: the summary of every record is exactly the newline-join of the
plain lines of the section (the stripped page text), whatever the
field extractions did, and extraction of the same section always gives
the same record (it is a pure function of its input). -/
theorem c9_summary_verbatim (p b : Str) :
    (extract_candidate_info_from_page_enhanced p b).summary
      = joinNl (splitOnNl (pyStrip p))
    ∧ extract_candidate_info_from_page_enhanced p b
      = extract_candidate_info_from_page_enhanced p b := by
  refine ⟨?_, rfl⟩
  show pyStrip p = joinNl (splitOnNl (pyStrip p))
  exact (joinNl_splitOnNl (pyStrip p)).symm

/-- C10: when two or more lines are consumed by the same single-line
label branch (CS, ES, or NOTICE PERIOD / NP, in the fixed priority
order of the loop), the value kept in the extraction result is the one
captured from the last such line. -/
theorem c10_last_match_wins (ls : List Str) :
    (2 ≤ (ls.filterMap csTaken).length →
      (ls.filterMap csTaken).getLast? = some (extract_from_text_lines ls).cs)
    ∧ (2 ≤ (ls.filterMap esTaken).length →
      (ls.filterMap esTaken).getLast? = some (extract_from_text_lines ls).es)
    ∧ (2 ≤ (ls.filterMap npTaken).length →
      (ls.filterMap npTaken).getLast? = some (extract_from_text_lines ls).np) := by
  refine ⟨fun h2 => ?_, fun h2 => ?_, fun h2 => ?_⟩
  · have hcs : (extract_from_text_lines ls).cs
        = ((ls.filterMap csTaken).getLast?).getD initState.cs := foldl_cs_last ls initState
    cases hl : (ls.filterMap csTaken).getLast? with
    | none =>
      rw [List.getLast?_eq_none_iff.mp hl] at h2
      simp at h2
    | some v =>
      rw [hcs, hl]
      rfl
  · have hes : (extract_from_text_lines ls).es
        = ((ls.filterMap esTaken).getLast?).getD initState.es := foldl_es_last ls initState
    cases hl : (ls.filterMap esTaken).getLast? with
    | none =>
      rw [List.getLast?_eq_none_iff.mp hl] at h2
      simp at h2
    | some v =>
      rw [hes, hl]
      rfl
  · have hnp : (extract_from_text_lines ls).np
        = ((ls.filterMap npTaken).getLast?).getD initState.np := foldl_np_last ls initState
    cases hl : (ls.filterMap npTaken).getLast? with
    | none =>
      rw [List.getLast?_eq_none_iff.mp hl] at h2
      simp at h2
    | some v =>
      rw [hnp, hl]
      rfl

/-- C10 witness: the last-match statement at a line list with two CS,
two ES and two NP lines. -/
theorem c10_last_match_wins_witness :
    (2 ≤ (c10lines.filterMap csTaken).length
      ∧ (c10lines.filterMap csTaken).getLast? = some (extract_from_text_lines c10lines).cs)
    ∧ (2 ≤ (c10lines.filterMap esTaken).length
      ∧ (c10lines.filterMap esTaken).getLast? = some (extract_from_text_lines c10lines).es)
    ∧ (2 ≤ (c10lines.filterMap npTaken).length
      ∧ (c10lines.filterMap npTaken).getLast? = some (extract_from_text_lines c10lines).np) :=
  ⟨⟨by decide, (c10_last_match_wins c10lines).1 (by decide)⟩,
   ⟨by decide, (c10_last_match_wins c10lines).2.1 (by decide)⟩,
   ⟨by decide, (c10_last_match_wins c10lines).2.2 (by decide)⟩⟩

end CandExtract
